import Mathlib

/-!
# Verification of the `code_collector` selection and aggregation engine

This file is a shallow embedding of `src/main.rs` of the `code_collector`
repository: a CLI tool that walks a directory, selects files by extension and
exclusion rules, concatenates their contents into one annotated buffer, and
prints a tree of the included files.

Conventions of the embedding:
* Rust `String`/`&str` become Lean `String`; paths are carried as their list of
  components (`List String`), mirroring `Path::components()`; the displayed
  form joins components with `/` as `Path::to_string_lossy` does on Unix.
* `fs::read_to_string` outcomes become the `ReadResult` inductive
  (`ok content`, `invalidData` for `ErrorKind::InvalidData`, `err msg` for any
  other error).
* The filesystem is a finite tree (`FSTree`/`FSList`, a mutual inductive pair
  so that all functions are structurally recursive and kernel-evaluable);
  `FSList` encodes the list of entries of a directory.
* The walker collaborator (`ignore::WalkBuilder`) is external; its hidden-file,
  gitignore and type-matcher decisions are abstracted as boolean predicates
  `fileOk`/`dirOk` on relative component paths, while the `filter_entry`
  closure installed by `main` (pruning directories whose basename is in the
  exclusion set) is modelled concretely in `walkEntries`.
* `eprintln!` diagnostics are collected in the `errLines` field of `RunState`,
  separate from the primary `codeBuffer`.
-/

namespace CodeCollector

/-- `CommentStyle` from `main.rs`: a line-comment marker or a block-comment
delimiter pair. -/
inductive CommentStyle where
  | Line : String → CommentStyle
  | Block : String → String → CommentStyle
deriving DecidableEq

/-- `get_comment_syntax` from `main.rs` (lines 37–47): maps a lowercase
extension to its comment style; the `|`-separated match alternatives are
rendered as list membership, the wildcard arm as the final `else`. -/
def getCommentSyntax (extension : String) : CommentStyle :=
  if extension ∈ ["rs", "js", "ts", "c", "h", "cpp", "hpp", "java", "cs", "go",
      "swift", "kt", "kts"] then
    CommentStyle.Line "//"
  else if extension ∈ ["py", "sh", "yaml", "yml", "toml", "ini", "rb", "pl",
      "r", "php", "ps1", "makefile"] then
    CommentStyle.Line "#"
  else if extension ∈ ["html", "xml", "xhtml"] then
    CommentStyle.Block "<!--" "-->"
  else if extension = "css" then
    CommentStyle.Block "/*" "*/"
  else
    CommentStyle.Line "//"

/-- Rust's `str::to_lowercase`, restricted to the ASCII mapping (the program
compares ASCII extension strings); defined by a structural `List.map` so the
kernel can evaluate it. -/
def toLowerStr (s : String) : String :=
  String.mk (s.data.map Char.toLower)

/-- Characters after the last `.` of a character list, or `none` when the list
has no `.`.  Helper for `rustExtension`. -/
def afterLastDot : List Char → Option (List Char)
  | [] => none
  | c :: rest =>
    match afterLastDot rest with
    | some e => some e
    | none => if c = '.' then some rest else none

/-- Rust's `Path::extension()` on a file basename: the portion after the last
`.`, except that a `.` in the leading position does not count as a separator
(so `".gitignore"` has no extension while `".tar.gz"` has extension `"gz"`). -/
def rustExtension (name : String) : Option String :=
  match name.data with
  | [] => none
  | _ :: rest => (afterLastDot rest).map (fun cs => String.mk cs)

/-- The lowercased extension the main loop computes for a file with the given
relative component path (`main.rs` lines 158–162):
`path.extension().and_then(to_str).unwrap_or("").to_lowercase()`. -/
def extOf (c : List String) : String :=
  toLowerStr ((rustExtension (c.getLastD "")).getD "")

/-- Display form of a relative component path: components joined with `/`
(`Path::to_string_lossy` on Unix). -/
def relDisplay : List String → String
  | [] => ""
  | [x] => x
  | x :: xs => x ++ "/" ++ relDisplay xs

/-- Rust `Debug` formatting of a path (`{:?}`): the path in double quotes. -/
def quoteDbg (s : String) : String := "\"" ++ s ++ "\""

/-- `entry.path()`: the scan root joined with the relative path. -/
def pathJoin (dir rel : String) : String := dir ++ "/" ++ rel

/-- Outcome of `fs::read_to_string` on one file: decoded text, an
`ErrorKind::InvalidData` failure (binary content), or any other I/O error. -/
inductive ReadResult where
  | ok : String → ReadResult
  | invalidData : ReadResult
  | err : String → ReadResult
deriving DecidableEq

mutual
/-- A filesystem entry: a file with the outcome reading it would produce, or a
directory with its list of entries. -/
inductive FSTree where
  | file : String → ReadResult → FSTree
  | dir : String → FSList → FSTree
deriving DecidableEq
/-- The entries of a directory (a copy of `List FSTree`, kept mutual so that
the walk is structurally recursive). -/
inductive FSList where
  | nil : FSList
  | cons : FSTree → FSList → FSList
deriving DecidableEq
end

/-- The walk over a directory's entries (the `ignore` walker configured in
`main.rs` lines 138–151), yielding for every reached file its relative
component path and read outcome, in depth-first entry order.
* `ex` is the exclusion set: a directory whose basename is in `ex` is pruned by
  the `filter_entry` closure — the walk does not descend into it.
* `fileOk`/`dirOk` abstract the external walker filters (hidden files,
  gitignore rules, and the type matcher), applied to relative paths.
* `pre` is the relative component path of the directory being walked.
Directory entries themselves are not yielded: the main loop ignores every
entry with `path.is_file()` false (line 157). -/
def walkEntries (ex : List String) (fileOk dirOk : List String → Bool)
    (pre : List String) : FSList → List (List String × ReadResult)
  | .nil => []
  | .cons (.file n r) rest =>
    (if fileOk (pre ++ [n]) then [(pre ++ [n], r)] else [])
      ++ walkEntries ex fileOk dirOk pre rest
  | .cons (.dir n es) rest =>
    (if n ∈ ex ∨ ¬ dirOk (pre ++ [n]) then []
     else walkEntries ex fileOk dirOk (pre ++ [n]) es)
      ++ walkEntries ex fileOk dirOk pre rest

/-- The mutable state of the main loop: the aggregate buffer (`code_buffer`),
the included-files list (`copied_files`, relative component paths in traversal
order), and the diagnostic lines written to standard error. -/
structure RunState where
  codeBuffer : String
  copiedFiles : List (List String)
  errLines : List String
deriving DecidableEq

/-- The body of the main loop for one file entry (`main.rs` lines 157–199):
skip the file when the configured extension list is non-empty and does not
contain the file's lowercased extension; otherwise build the header from the
comment style and append header, raw content and a blank-line separator to the
buffer and the path to `copied_files`, or emit one diagnostic line for a
binary (`InvalidData`) or otherwise unreadable file. -/
def processFile (dir : String) (exts : List String) (st : RunState)
    (c : List String) (r : ReadResult) : RunState :=
  let extension := extOf c
  if !exts.isEmpty && !exts.contains extension then st
  else
    let commentSyntax := getCommentSyntax extension
    let rel := relDisplay c
    match r with
    | .ok content =>
      let fileContent :=
        (match commentSyntax with
         | .Line p => p ++ " " ++ rel ++ "\n"
         | .Block s e => s ++ " " ++ rel ++ "\n" ++ e ++ "\n")
        ++ content ++ "\n\n"
      { st with codeBuffer := st.codeBuffer ++ fileContent,
                copiedFiles := st.copiedFiles ++ [c] }
    | .invalidData =>
      { st with errLines := st.errLines
          ++ ["Skipping binary file " ++ quoteDbg (pathJoin dir rel)] }
    | .err e =>
      { st with errLines := st.errLines
          ++ ["Could not read file " ++ quoteDbg (pathJoin dir rel) ++ ": " ++ e] }

/-- The main loop folded over an error-free stream of walked entries. -/
def runCollect (dir : String) (exts : List String) (st : RunState) :
    List (List String × ReadResult) → RunState
  | [] => st
  | cr :: rest => runCollect dir exts (processFile dir exts st cr.1 cr.2) rest

/-- The main loop over the walker's result stream (`main.rs` lines 153–201):
`let entry = result?` propagates any error yielded by the walk, aborting the
whole run; an `ok` entry is processed and traversal continues. -/
def collectorLoop (dir : String) (exts : List String) (st : RunState) :
    List (Except String (List String × ReadResult)) → Except String RunState
  | [] => .ok st
  | .error e :: _ => .error e
  | .ok cr :: rest => collectorLoop dir exts (processFile dir exts st cr.1 cr.2) rest

/-- The eight built-in excluded directory basenames (`main.rs` lines 119–131). -/
def defaultExcludedDirs : List String :=
  ["node_modules", "target", "build", "dist", "venv", "env", ".venv", ".env"]

/-- The run's exclusion set: built-in defaults united with the user-supplied
names (`main.rs` lines 133–136); membership is case-sensitive string equality. -/
def excludedDirNames (user : List String) : List String :=
  defaultExcludedDirs ++ user

/-- Modelled from the spec: the type-definition collaborator
(`ignore::types::TypesBuilder::add`, invoked for each configured extension at
`main.rs` lines 104–109) accepts only names that are non-empty and
alphanumeric; an invalid extension pattern is a configuration error that is
"fatal, reported, process aborts before any I/O" (spec §7).  The alphanumeric
class is the ASCII fragment of the collaborator's `[\pL\pN]+` rule. -/
def validExtName (s : String) : Bool :=
  !s.data.isEmpty && s.data.all Char.isAlphanum

/-- The whole run up to the end of the aggregation loop (`main.rs` lines
94–201): lowercase the configured extensions; register them with the type
builder (aborting on an invalid name) or fall back to the default type
definitions when none are given; walk the root's entries with the exclusion
set installed in `filter_entry`; and fold the main loop over the results.
`fileOk`/`dirOk` abstract the external walker filters; over a pure filesystem
the walk itself yields no error results. -/
def runProgram (dir : String) (rawExts userExcl : List String)
    (fileOk dirOk : List String → Bool) (root : FSList) : Except String RunState :=
  let exts := rawExts.map toLowerStr
  if exts.isEmpty || exts.all validExtName then
    collectorLoop dir exts ⟨"", [], []⟩
      ((walkEntries (excludedDirNames userExcl) fileOk dirOk [] root).map Except.ok)
  else
    .error "invalid definition (format is type:glob, e.g. html:*.html)"

/-- Lexicographic order on character lists by code point.  Helper for
`strLt`. -/
def lexLt : List Char → List Char → Bool
  | _, [] => false
  | [], _ :: _ => true
  | a :: as, b :: bs =>
    if a.toNat < b.toNat then true
    else if b.toNat < a.toNat then false
    else lexLt as bs

/-- Rust's `Ord` on `String` (byte-lexicographic on UTF-8, which coincides
with code-point lexicographic order), as used by `keys.sort()` in
`TreeNode::print`; it also orders the canonical key-sorted representation of
the children map. -/
def strLt (a b : String) : Bool := lexLt a.data b.data

mutual
/-- `TreeNode` from `main.rs` (lines 49–52): a name and a children map from
child name to child node.  The source's `HashMap` is an unordered finite map
whose keys are sorted at print time; it is represented canonically as the
key-sorted association list `ChildMap`, so that iterating the representation
in order is exactly iteration over the sorted keys. -/
inductive TreeNode where
  | mk : String → ChildMap → TreeNode
deriving DecidableEq
/-- The children map of a `TreeNode`: an association list of (name, child)
entries, kept sorted by `strLt` on names (a copy of
`List (String × TreeNode)`, kept mutual so all functions are structurally
recursive). -/
inductive ChildMap where
  | nil : ChildMap
  | cons : String → TreeNode → ChildMap → ChildMap
deriving DecidableEq
end

/-- `self.children.entry(name).or_insert_with(|| TreeNode::new(name))`
followed by applying `upd` to the entry (`TreeNode::add_path`, lines 66–71),
on the key-sorted representation: look up `c`; when absent, insert a fresh
`TreeNode::new(c)` at its sorted position; apply `upd` (the recursive
`add_path` on the remaining components) to the entry's node. -/
def insertChild (c : String) (upd : TreeNode → TreeNode) : ChildMap → ChildMap
  | .nil => .cons c (upd (.mk c .nil)) .nil
  | .cons k v rest =>
    if strLt c k then .cons c (upd (.mk c .nil)) (.cons k v rest)
    else if c = k then .cons k (upd v) rest
    else .cons k v (insertChild c upd rest)

/-- `TreeNode::add_path` (lines 62–72): an empty component list changes
nothing; otherwise descend into (creating if needed) the child named by the
first component and recurse with the remaining components. -/
def TreeNode.addPath : TreeNode → List String → TreeNode
  | t, [] => t
  | .mk nm cs, comp :: rest =>
    .mk nm (insertChild comp (fun ch => TreeNode.addPath ch rest) cs)

/-- Whether a child is the last of its siblings (`i == keys.len() - 1` in the
print loop, under the sorted-representation invariant). -/
def isLastChild : ChildMap → Bool
  | .nil => true
  | .cons _ _ _ => false

/-- The print loop of `TreeNode::print` (lines 84–90) over the sorted
children: each child prints its own line at the parent's extended prefix with
a glyph chosen by whether it is the last sibling, then its own children at
the further-extended prefix (the body of `print` inlined for the child),
then the remaining siblings follow. -/
def renderChildren (pre : String) : ChildMap → List String
  | .nil => []
  | .cons _ (.mk nm gs) rest =>
    (if nm.isEmpty then []
     else [pre ++ (if isLastChild rest then "└── " else "├── ") ++ nm])
      ++ renderChildren (pre ++ (if isLastChild rest then "    " else "│   ")) gs
      ++ renderChildren pre rest

/-- `TreeNode::print` (lines 74–91) as a function producing the printed
lines: the node's own line (skipped when its name is empty, i.e. for the
root), followed by its children rendered at the prefix extended by a
continuation glyph that depends on `is_last`. -/
def TreeNode.render : TreeNode → String → Bool → List String
  | .mk nm cs, pre, isLast =>
    (if nm.isEmpty then []
     else [pre ++ (if isLast then "└── " else "├── ") ++ nm])
      ++ renderChildren (pre ++ (if isLast then "    " else "│   ")) cs

/-- Tree construction in `main` (lines 203–212): fold `add_path` over the
copied files' component paths, starting from a root with empty name. -/
def buildTree (paths : List (List String)) : TreeNode :=
  paths.foldl TreeNode.addPath (.mk "" .nil)

/-- Tree output in `main` (line 215): `root.print("", true)`. -/
def renderTree (t : TreeNode) : List String := t.render "" true


/-! ## Order facts for `strLt` -/

theorem lexLt_irrefl : ∀ l : List Char, lexLt l l = false := by
  intro l
  induction l with
  | nil => rfl
  | cons a as ih => simp [lexLt, ih]

theorem lexLt_asymm : ∀ a b : List Char, lexLt a b = true → lexLt b a = false := by
  intro a
  induction a with
  | nil =>
    intro b h
    cases b with
    | nil => simp [lexLt] at h
    | cons y ys => rfl
  | cons x xs ih =>
    intro b h
    cases b with
    | nil => simp [lexLt] at h
    | cons y ys =>
      simp only [lexLt] at h ⊢
      rcases Nat.lt_trichotomy x.toNat y.toNat with hlt | heq | hgt
      · simp [hlt, Nat.lt_asymm hlt]
      · simp [heq, Nat.lt_irrefl] at h ⊢
        exact ih ys h
      · simp [hgt, Nat.lt_asymm hgt] at h

theorem lexLt_connex : ∀ a b : List Char, a ≠ b → lexLt a b = true ∨ lexLt b a = true := by
  intro a
  induction a with
  | nil =>
    intro b hne
    cases b with
    | nil => exact absurd rfl hne
    | cons y ys => left; rfl
  | cons x xs ih =>
    intro b hne
    cases b with
    | nil => right; rfl
    | cons y ys =>
      rcases Nat.lt_trichotomy x.toNat y.toNat with hlt | heq | hgt
      · left; simp [lexLt, hlt]
      · have hxy : x = y := Char.ext (UInt32.ext heq)
        subst hxy
        have htail : xs ≠ ys := by
          intro hcontra; exact hne (by rw [hcontra])
        rcases ih ys htail with h | h
        · left; simp [lexLt, Nat.lt_irrefl, h]
        · right; simp [lexLt, Nat.lt_irrefl, h]
      · right; simp [lexLt, hgt, Nat.lt_asymm hgt]

theorem strLt_irrefl (a : String) : strLt a a = false := lexLt_irrefl a.data

theorem strLt_asymm {a b : String} (h : strLt a b = true) : strLt b a = false :=
  lexLt_asymm a.data b.data h

theorem strLt_connex {a b : String} (hne : a ≠ b) : strLt a b = true ∨ strLt b a = true :=
  lexLt_connex a.data b.data (fun h => hne (String.ext h))

theorem lexLt_trans : ∀ a b c : List Char,
    lexLt a b = true → lexLt b c = true → lexLt a c = true := by
  intro a
  induction a with
  | nil =>
    intro b c hab hbc
    cases b with
    | nil => simp [lexLt] at hab
    | cons y ys =>
      cases c with
      | nil => simp [lexLt] at hbc
      | cons z zs => rfl
  | cons x xs ih =>
    intro b c hab hbc
    cases b with
    | nil => simp [lexLt] at hab
    | cons y ys =>
      cases c with
      | nil => simp [lexLt] at hbc
      | cons z zs =>
        simp only [lexLt] at hab hbc ⊢
        rcases Nat.lt_trichotomy x.toNat y.toNat with h1 | h1 | h1
        · rcases Nat.lt_trichotomy y.toNat z.toNat with h2 | h2 | h2
          · simp [Nat.lt_trans h1 h2]
          · simp [h2 ▸ h1]
          · simp [Nat.lt_asymm h2, h2] at hbc
        · rcases Nat.lt_trichotomy y.toNat z.toNat with h2 | h2 | h2
          · simp [h1 ▸ h2]
          · have hxz : x.toNat = z.toNat := h1.trans h2
            simp only [h1, Nat.lt_irrefl, if_false] at hab
            simp only [h2, Nat.lt_irrefl, if_false] at hbc
            simp [hxz, Nat.lt_irrefl]
            exact ih ys zs hab hbc
          · simp [Nat.lt_asymm h2, h2] at hbc
        · simp [Nat.lt_asymm h1, h1] at hab

theorem strLt_trans {a b c : String} (h1 : strLt a b = true) (h2 : strLt b c = true) :
    strLt a c = true :=
  lexLt_trans a.data b.data c.data h1 h2

theorem strLt_ne {a b : String} (h : strLt a b = true) : a ≠ b := by
  intro hcontra
  subst hcontra
  rw [strLt_irrefl] at h
  exact Bool.false_ne_true h

/-! ## Path-tree lemmas: insertion commutes, building is order-independent,
children stay key-sorted -/

/-- List-style induction for `ChildMap` (the mutual recursor has multiple
motives; most lemmas only need the list structure). -/
theorem ChildMap.recList {motive : ChildMap → Prop} (hnil : motive .nil)
    (hcons : ∀ k v rest, motive rest → motive (.cons k v rest)) :
    ∀ cs : ChildMap, motive cs
  | .nil => hnil
  | .cons k v rest => hcons k v rest (ChildMap.recList hnil hcons rest)

theorem addPath_nil (t : TreeNode) : t.addPath [] = t := by
  cases t with
  | mk nm cs => rfl

theorem insertChild_comm_ne {c d : String} (hne : c ≠ d) (f g : TreeNode → TreeNode) :
    ∀ cs : ChildMap,
      insertChild c f (insertChild d g cs) = insertChild d g (insertChild c f cs) := by
  intro cs
  induction cs using ChildMap.recList with
  | hnil =>
    rcases strLt_connex hne with hcd | hdc
    · simp [insertChild, hcd, strLt_asymm hcd, hne, hne.symm]
    · simp [insertChild, hdc, strLt_asymm hdc, hne, hne.symm]
  | hcons k v rest ih =>
    by_cases hck : strLt c k = true
    · by_cases hdk : strLt d k = true
      · -- case 1: both c and d sort before k
        rcases strLt_connex hne with hcd | hdc
        · simp [insertChild, hck, hdk, hcd, strLt_asymm hcd, hne, hne.symm]
        · simp [insertChild, hck, hdk, hdc, strLt_asymm hdc, hne, hne.symm]
      · by_cases hdk2 : d = k
        · -- case 2: c before k, d = k
          subst hdk2
          have hkc : strLt d c = false := strLt_asymm hck
          simp [insertChild, hck, hkc, strLt_irrefl, hne, hne.symm]
        · -- case 3: c before k, d after k
          have hdc : strLt d c = false := by
            cases hdc0 : strLt d c with
            | false => rfl
            | true => exact absurd (strLt_trans hdc0 hck) (by simp [hdk])
          simp [insertChild, hck, hdk, hdk2, hdc, hne.symm]
    · by_cases hck2 : c = k
      · subst hck2
        by_cases hdk : strLt d c = true
        · -- case 4: d before k = c
          have hcd : strLt c d = false := strLt_asymm hdk
          simp [insertChild, hdk, hcd, strLt_irrefl, hne, hne.symm]
        · -- case 6: c = k, d after k
          simp [insertChild, hck, hdk, hne.symm, strLt_irrefl]
      · by_cases hdk : strLt d k = true
        · -- case 7: d before k, c after k (mirror of case 3)
          have hcd : strLt c d = false := by
            cases hcd0 : strLt c d with
            | false => rfl
            | true => exact absurd (strLt_trans hcd0 hdk) (by simp [hck])
          simp [insertChild, hck, hck2, hdk, hcd, hne]
        · by_cases hdk2 : d = k
          · -- case 8: c after k, d = k (mirror of case 2)
            subst hdk2
            simp [insertChild, hck, hck2, strLt_irrefl, hne]
          · -- case 9: both after k
            simp [insertChild, hck, hck2, hdk, hdk2, ih]

theorem insertChild_comm_eq (c : String) (f g : TreeNode → TreeNode) :
    ∀ cs : ChildMap,
      insertChild c f (insertChild c g cs) = insertChild c (fun t => f (g t)) cs := by
  intro cs
  induction cs using ChildMap.recList with
  | hnil => simp [insertChild, strLt_irrefl]
  | hcons k v rest ih =>
    by_cases hck : strLt c k = true
    · simp [insertChild, hck, strLt_irrefl]
    · by_cases hck2 : c = k
      · subst hck2
        simp [insertChild, hck, strLt_irrefl]
      · simp [insertChild, hck, hck2, ih]

theorem addPath_comm : ∀ (p q : List String) (t : TreeNode),
    (t.addPath q).addPath p = (t.addPath p).addPath q := by
  intro p
  induction p with
  | nil => intro q t; rw [addPath_nil, addPath_nil]
  | cons c p' ih =>
    intro q t
    cases q with
    | nil => rw [addPath_nil, addPath_nil]
    | cons d q' =>
      cases t with
      | mk nm cs =>
        simp only [TreeNode.addPath]
        by_cases hcd : c = d
        · subst hcd
          rw [insertChild_comm_eq, insertChild_comm_eq]
          have hfg : (fun ch => TreeNode.addPath (TreeNode.addPath ch q') p')
              = (fun ch => TreeNode.addPath (TreeNode.addPath ch p') q') := by
            funext ch
            exact ih q' ch
          rw [hfg]
        · rw [insertChild_comm_ne hcd]

/-- Building the tree is invariant under permutation of the inserted paths:
`add_path` operations commute, so any insertion order yields the same
canonical tree. -/
theorem foldl_addPath_perm {l1 l2 : List (List String)} (h : l1.Perm l2) :
    ∀ t : TreeNode, l1.foldl TreeNode.addPath t = l2.foldl TreeNode.addPath t := by
  induction h with
  | nil => intro t; rfl
  | cons x h ih => intro t; simp only [List.foldl_cons]; exact ih _
  | swap x y l => intro t; simp only [List.foldl_cons]; rw [addPath_comm]
  | trans h1 h2 ih1 ih2 => intro t; rw [ih1, ih2]

/-- Whether `k` sorts strictly before the first key of a children map. -/
def headLt (k : String) : ChildMap → Bool
  | .nil => true
  | .cons k2 _ _ => strLt k k2

/-- The key-sorted invariant of the canonical children representation: keys
strictly increase left to right, recursively at every node.  Under it, the
representation order coincides with the sorted key order that
`TreeNode::print` iterates (`keys.sort()`). -/
def sortedChildren : ChildMap → Bool
  | .nil => true
  | .cons k (.mk _ gs) rest => sortedChildren gs && headLt k rest && sortedChildren rest

/-- A node is sorted when its children map is. -/
def sortedNode : TreeNode → Bool
  | .mk _ cs => sortedChildren cs

theorem headLt_nil (k : String) : headLt k .nil = true := rfl

theorem headLt_cons (k k2 : String) (v : TreeNode) (r : ChildMap) :
    headLt k (.cons k2 v r) = strLt k k2 := rfl

theorem sortedChildren_cons (k : String) (v : TreeNode) (rest : ChildMap) :
    sortedChildren (.cons k v rest)
      = (sortedNode v && headLt k rest && sortedChildren rest) := by
  cases v with
  | mk nm gs => rfl

theorem headLt_insertChild {k c : String} (upd : TreeNode → TreeNode)
    (rest : ChildMap) (hk : headLt k rest = true) (hkc : strLt k c = true) :
    headLt k (insertChild c upd rest) = true := by
  cases rest with
  | nil => simpa [insertChild, headLt_cons] using hkc
  | cons k2 v r =>
    rw [headLt_cons] at hk
    by_cases h1 : strLt c k2 = true
    · simpa [insertChild, h1, headLt_cons] using hkc
    · by_cases h2 : c = k2
      · subst h2
        simpa [insertChild, h1, strLt_irrefl, headLt_cons] using hk
      · simpa [insertChild, h1, h2, headLt_cons] using hk

theorem insertChild_sorted (c : String) (upd : TreeNode → TreeNode)
    (hupd : ∀ t, sortedNode t = true → sortedNode (upd t) = true)
    (hbase : sortedNode (upd (.mk c .nil)) = true) :
    ∀ cs : ChildMap, sortedChildren cs = true →
      sortedChildren (insertChild c upd cs) = true := by
  intro cs
  induction cs using ChildMap.recList with
  | hnil =>
    intro _
    simp [insertChild, sortedChildren_cons, hbase, headLt_nil, sortedChildren]
  | hcons k v rest ih =>
    intro hs
    rw [sortedChildren_cons] at hs
    have hv : sortedNode v = true := by
      cases hq : sortedNode v <;> simp [hq] at hs ⊢
    have hhead : headLt k rest = true := by
      cases hq : headLt k rest <;> simp [hq] at hs ⊢
    have hrest : sortedChildren rest = true := by
      cases hq : sortedChildren rest <;> simp [hq] at hs ⊢
    by_cases h1 : strLt c k = true
    · simp [insertChild, h1, sortedChildren_cons, hbase, headLt_cons, hv, hhead, hrest]
    · by_cases h2 : c = k
      · subst h2
        simp [insertChild, h1, sortedChildren_cons, hupd v hv, hhead, hrest,
          strLt_irrefl]
      · have hkc : strLt k c = true := by
          rcases strLt_connex h2 with h | h
          · exact absurd h (by simp [h1])
          · exact h
        simp [insertChild, h1, h2, sortedChildren_cons, hv,
          headLt_insertChild upd rest hhead hkc, ih hrest]

theorem addPath_sorted : ∀ (p : List String) (t : TreeNode),
    sortedNode t = true → sortedNode (t.addPath p) = true := by
  intro p
  induction p with
  | nil => intro t ht; rwa [addPath_nil]
  | cons c p' ih =>
    intro t ht
    cases t with
    | mk nm cs =>
      simp only [TreeNode.addPath, sortedNode]
      exact insertChild_sorted c _ ih (ih (.mk c .nil) rfl) cs ht

/-- Every tree built by `main` from the copied paths satisfies the key-sorted
invariant: its children are in strictly increasing key order at every node,
which is the order `renderChildren` emits them in. -/
theorem buildTree_sorted (paths : List (List String)) :
    sortedNode (buildTree paths) = true := by
  have hgen : ∀ (l : List (List String)) (t : TreeNode), sortedNode t = true →
      sortedNode (l.foldl TreeNode.addPath t) = true := by
    intro l
    induction l with
    | nil => intro t ht; exact ht
    | cons p rest ih =>
      intro t ht
      exact ih _ (addPath_sorted p t ht)
  exact hgen paths (.mk "" .nil) rfl


/-! ## Aggregation: per-file behaviour and the shape of the final buffer -/

/-- The extension filter of the main loop as a predicate: the negation of the
`continue` condition at `main.rs` line 164 — a file is processed when the
configured list is empty or contains its lowercased extension. -/
def passesFilter (exts : List String) (c : List String) : Bool :=
  !(!exts.isEmpty && !exts.contains (extOf c))

/-- The diagnostic line for a binary file
(`eprintln!("Skipping binary file {:?}", path)`). -/
def binaryDiag (dir : String) (c : List String) : String :=
  "Skipping binary file " ++ quoteDbg (pathJoin dir (relDisplay c))

/-- The diagnostic line for any other read failure
(`eprintln!("Could not read file {:?}: {}", path, e)`). -/
def readErrDiag (dir : String) (c : List String) (e : String) : String :=
  "Could not read file " ++ quoteDbg (pathJoin dir (relDisplay c)) ++ ": " ++ e

/-- The header the Comment-Style Resolver produces for a relative path: one
line for `Line` style, two lines for `Block` style (spec §4.3). -/
def headerFor : CommentStyle → String → String
  | .Line p, rel => p ++ " " ++ rel
  | .Block s e, rel => s ++ " " ++ rel ++ "\n" ++ e

/-- The complete buffer segment one included file contributes:
`{header}\n{content}\n\n` (spec §4.3). -/
def fileBlock (ext rel content : String) : String :=
  headerFor (getCommentSyntax ext) rel ++ "\n" ++ content ++ "\n\n"

/-- The files of an entry stream that the loop includes: those passing the
extension filter whose read succeeds, with their contents. -/
def includedFiles (exts : List String) :
    List (List String × ReadResult) → List (List String × String) :=
  List.filterMap (fun cr =>
    match cr.2 with
    | .ok content => if passesFilter exts cr.1 then some (cr.1, content) else none
    | _ => none)

/-- The buffer segments of an entry stream, one per included file. -/
def blocksOf (exts : List String) (l : List (List String × ReadResult)) :
    List String :=
  (includedFiles exts l).map (fun pc => fileBlock (extOf pc.1) (relDisplay pc.1) pc.2)

/-- The diagnostics of an entry stream: one line per file that passes the
extension filter but fails to read. -/
def diagLines (dir : String) (exts : List String) :
    List (List String × ReadResult) → List String :=
  List.filterMap (fun cr =>
    if passesFilter exts cr.1 then
      match cr.2 with
      | .ok _ => none
      | .invalidData => some (binaryDiag dir cr.1)
      | .err e => some (readErrDiag dir cr.1 e)
    else none)

/-- Concatenation of a list of strings. -/
def concatAll : List String → String
  | [] => ""
  | s :: ss => s ++ concatAll ss

theorem processFile_skip (dir : String) (exts : List String) (st : RunState)
    (c : List String) (r : ReadResult) (h : passesFilter exts c = false) :
    processFile dir exts st c r = st := by
  have h' : (!exts.isEmpty && !exts.contains (extOf c)) = true := by
    revert h; simp [passesFilter]
  simp only [processFile]
  rw [if_pos h']

theorem processFile_ok (dir : String) (exts : List String) (st : RunState)
    (c : List String) (content : String) (h : passesFilter exts c = true) :
    processFile dir exts st c (.ok content) =
      ⟨st.codeBuffer ++ fileBlock (extOf c) (relDisplay c) content,
       st.copiedFiles ++ [c], st.errLines⟩ := by
  have h' : ¬ ((!exts.isEmpty && !exts.contains (extOf c)) = true) := by
    revert h; simp [passesFilter]; tauto
  simp only [processFile]
  rw [if_neg h']
  cases hstyle : getCommentSyntax (extOf c) with
  | Line p => simp [hstyle, fileBlock, headerFor, String.append_assoc]
  | Block a b => simp [hstyle, fileBlock, headerFor, String.append_assoc]

theorem processFile_invalidData (dir : String) (exts : List String)
    (st : RunState) (c : List String) (h : passesFilter exts c = true) :
    processFile dir exts st c .invalidData =
      { st with errLines := st.errLines ++ [binaryDiag dir c] } := by
  have h' : ¬ ((!exts.isEmpty && !exts.contains (extOf c)) = true) := by
    revert h; simp [passesFilter]; tauto
  simp only [processFile]
  rw [if_neg h']
  rfl

theorem processFile_err (dir : String) (exts : List String) (st : RunState)
    (c : List String) (e : String) (h : passesFilter exts c = true) :
    processFile dir exts st c (.err e) =
      { st with errLines := st.errLines ++ [readErrDiag dir c e] } := by
  have h' : ¬ ((!exts.isEmpty && !exts.contains (extOf c)) = true) := by
    revert h; simp [passesFilter]; tauto
  simp only [processFile]
  rw [if_neg h']
  rfl

/-- Characterization of the whole aggregation loop: starting from any state,
the final buffer is the initial buffer followed by the concatenated blocks of
the included files, the copied list gains exactly the included files' paths,
and the diagnostics gain exactly one line per unreadable filtered file. -/
theorem runCollect_spec (dir : String) (exts : List String) :
    ∀ (l : List (List String × ReadResult)) (st : RunState),
      runCollect dir exts st l =
        ⟨st.codeBuffer ++ concatAll (blocksOf exts l),
         st.copiedFiles ++ (includedFiles exts l).map Prod.fst,
         st.errLines ++ diagLines dir exts l⟩ := by
  intro l
  induction l with
  | nil =>
    intro st
    simp [runCollect, blocksOf, includedFiles, diagLines, concatAll]
  | cons cr rest ih =>
    intro st
    obtain ⟨c, r⟩ := cr
    rw [show runCollect dir exts st ((c, r) :: rest)
        = runCollect dir exts (processFile dir exts st c r) rest from rfl, ih]
    cases hp : passesFilter exts c with
    | true =>
      cases r with
      | ok content =>
        rw [processFile_ok dir exts st c content hp]
        simp [blocksOf, includedFiles, diagLines, hp, concatAll,
          String.append_assoc, List.append_assoc]
      | invalidData =>
        rw [processFile_invalidData dir exts st c hp]
        simp [blocksOf, includedFiles, diagLines, hp, List.append_assoc]
      | err e =>
        rw [processFile_err dir exts st c e hp]
        simp [blocksOf, includedFiles, diagLines, hp, List.append_assoc]
    | false =>
      rw [processFile_skip dir exts st c r hp]
      cases r with
      | ok content => simp [blocksOf, includedFiles, diagLines, hp]
      | invalidData => simp [blocksOf, includedFiles, diagLines, hp]
      | err e => simp [blocksOf, includedFiles, diagLines, hp]

/-- Over an error-free result stream the driver loop cannot abort: it is the
plain fold of the loop body. -/
theorem collectorLoop_ok (dir : String) (exts : List String) :
    ∀ (l : List (List String × ReadResult)) (st : RunState),
      collectorLoop dir exts st (l.map Except.ok) = .ok (runCollect dir exts st l) := by
  intro l
  induction l with
  | nil => intro st; rfl
  | cons cr rest ih => intro st; simp [collectorLoop, runCollect, ih]


/-! ## Walk lemmas -/

/-- Induction on `FSList` following the shape of the walk (the mutual
recursor of `FSTree`/`FSList` has multiple motives; the walk only descends
into directory subtrees and list tails). -/
theorem FSList.recWalk {motive : FSList → Prop} (hnil : motive .nil)
    (hfile : ∀ n r rest, motive rest → motive (.cons (.file n r) rest))
    (hdir : ∀ n es rest, motive es → motive rest → motive (.cons (.dir n es) rest)) :
    ∀ es : FSList, motive es
  | .nil => hnil
  | .cons (.file n r) rest =>
    hfile n r rest (FSList.recWalk hnil hfile hdir rest)
  | .cons (.dir n es) rest =>
    hdir n es rest (FSList.recWalk hnil hfile hdir es) (FSList.recWalk hnil hfile hdir rest)

/-- Every entry the walk yields is a file strictly below the walked prefix,
none of its directory components is in the exclusion set, and it passed the
external file filter. -/
theorem walkEntries_mem (ex : List String) (fileOk dirOk : List String → Bool) :
    ∀ (es : FSList) (pre : List String) (cr : List String × ReadResult),
      cr ∈ walkEntries ex fileOk dirOk pre es →
      ∃ suf, cr.1 = pre ++ suf ∧ suf ≠ [] ∧
        (∀ d, d ∈ ex → d ∉ suf.dropLast) ∧ fileOk cr.1 = true := by
  intro es
  induction es using FSList.recWalk with
  | hnil =>
    intro pre cr hmem
    simp [walkEntries] at hmem
  | hfile n r rest ih =>
    intro pre cr hmem
    rw [walkEntries] at hmem
    rcases List.mem_append.mp hmem with h | h
    · by_cases hf : fileOk (pre ++ [n]) = true
      · rw [if_pos hf] at h
        rcases List.mem_singleton.mp h with rfl
        exact ⟨[n], rfl, by simp, by simp, hf⟩
      · rw [if_neg hf] at h
        simp at h
    · exact ih pre cr h
  | hdir n es rest ihes ihrest =>
    intro pre cr hmem
    rw [walkEntries] at hmem
    rcases List.mem_append.mp hmem with h | h
    · by_cases hcond : (n ∈ ex ∨ ¬ dirOk (pre ++ [n]) = true)
      · rw [if_pos hcond] at h
        simp at h
      · rw [if_neg hcond] at h
        push_neg at hcond
        obtain ⟨hnex, _⟩ := hcond
        obtain ⟨suf, h1, hne, hdrop, hfk⟩ := ihes (pre ++ [n]) cr h
        refine ⟨n :: suf, ?_, by simp, ?_, hfk⟩
        · rw [h1, List.append_assoc]
          rfl
        · intro d hd
          cases suf with
          | nil => exact absurd rfl hne
          | cons a as =>
            rw [show (n :: a :: as).dropLast = n :: (a :: as).dropLast from rfl]
            intro hmem2
            rcases List.mem_cons.mp hmem2 with rfl | hmem3
            · exact hnex hd
            · exact hdrop d hd hmem3
    · exact ihrest pre cr h

/-- Every member of `includedFiles` comes from an `ok` entry of the stream
that passes the extension filter. -/
theorem includedFiles_mem {exts : List String}
    {l : List (List String × ReadResult)} {pc : List String × String}
    (h : pc ∈ includedFiles exts l) :
    (pc.1, ReadResult.ok pc.2) ∈ l ∧ passesFilter exts pc.1 = true := by
  unfold includedFiles at h
  rcases List.mem_filterMap.mp h with ⟨cr, hcr, heq⟩
  obtain ⟨c, r⟩ := cr
  cases r with
  | ok content =>
    cases hp : passesFilter exts c with
    | true =>
      simp only [hp, if_true] at heq
      obtain rfl := Option.some.inj heq
      exact ⟨hcr, hp⟩
    | false => simp [hp] at heq
  | invalidData => simp at heq
  | err e => simp at heq

/-- Eliminating a successful `runProgram`: the configuration validation
passed and the final state is the aggregation fold over the walked entries. -/
theorem runProgram_ok_elim {dir : String} {rawExts userExcl : List String}
    {fileOk dirOk : List String → Bool} {root : FSList} {st : RunState}
    (h : runProgram dir rawExts userExcl fileOk dirOk root = .ok st) :
    ((rawExts.map toLowerStr).isEmpty
      || (rawExts.map toLowerStr).all validExtName) = true ∧
    st = runCollect dir (rawExts.map toLowerStr) ⟨"", [], []⟩
          (walkEntries (excludedDirNames userExcl) fileOk dirOk [] root) := by
  simp only [runProgram] at h
  split at h
  · rw [collectorLoop_ok] at h
    refine ⟨by assumption, ?_⟩
    exact (Except.ok.inj h).symm
  · cases h



/-- Follows the spec's words: splitting a text at every occurrence of the
two-character double-newline separator, scanning left to right (each
occurrence of the separator is consumed and closes the current segment).
Defined on the character list so the kernel can evaluate it. -/
def splitBlankSep : List Char → List (List Char)
  | chr1 :: chr2 :: rest =>
    if chr1 = '\n' ∧ chr2 = '\n' then [] :: splitBlankSep rest
    else
      match splitBlankSep (chr2 :: rest) with
      | seg :: segs => (chr1 :: seg) :: segs
      | [] => [[chr1]]
  | [ch] => [[ch]]
  | [] => [[]]

/-- The segments of a string split on the double-newline separator. -/
def doubleNewlineSegments (s : String) : List String :=
  (splitBlankSep s.data).map (fun l => String.mk l)

/-! ## Fixtures for concrete runs -/

/-- The spec's example scenario filesystem (spec §8): a root containing
`a.py`, `b.txt`, `sub/c.py` and `node_modules/d.py`. -/
def sampleRoot : FSList :=
  .cons (.file "a.py" (.ok "A"))
    (.cons (.file "b.txt" (.ok "B"))
      (.cons (.dir "sub" (.cons (.file "c.py" (.ok "C")) .nil))
        (.cons (.dir "node_modules" (.cons (.file "d.py" (.ok "D")) .nil)) .nil)))

/-- External walker filters that accept everything (no hidden files, no
ignore rules, permissive type matcher). -/
def allOk : List String → Bool := fun _ => true

/-- A successful `passesFilter` means the configured list is empty or
contains the file's lowercased extension. -/
theorem passesFilter_true_cases {exts : List String} {c : List String}
    (h : passesFilter exts c = true) : exts = [] ∨ extOf c ∈ exts := by
  simp [passesFilter] at h
  tauto


/-! ## Claims -/

/-- C1: in every run, when the configured extension list is non-empty, every
file recorded in the included-files list has a lowercased extension that is
string-equal to a member of the configured list (both sides lowercased, no
glob matching); when the configured list is empty, inclusion is governed by
the walker's default type-detection rule (the external `fileOk` predicate
accepted the file). -/
theorem extension_allowlist_governs_inclusion (dir : String)
    (rawExts userExcl : List String) (fileOk dirOk : List String → Bool)
    (root : FSList) (st : RunState)
    (h : runProgram dir rawExts userExcl fileOk dirOk root = .ok st) :
    (rawExts ≠ [] → ∀ c ∈ st.copiedFiles, extOf c ∈ rawExts.map toLowerStr) ∧
    (rawExts = [] → ∀ c ∈ st.copiedFiles, fileOk c = true) := by
  obtain ⟨hvalid, hst⟩ := runProgram_ok_elim h
  rw [runCollect_spec] at hst
  have hcopied : st.copiedFiles =
      (includedFiles (rawExts.map toLowerStr)
        (walkEntries (excludedDirNames userExcl) fileOk dirOk [] root)).map Prod.fst := by
    rw [hst]
    simp
  constructor
  · intro hne c hc
    rw [hcopied] at hc
    rcases List.mem_map.mp hc with ⟨pc, hpc, rfl⟩
    obtain ⟨_, hpass⟩ := includedFiles_mem hpc
    rcases passesFilter_true_cases hpass with hempty | hmem
    · exact absurd (List.map_eq_nil_iff.mp hempty) hne
    · exact hmem
  · intro _ c hc
    rw [hcopied] at hc
    rcases List.mem_map.mp hc with ⟨pc, hpc, rfl⟩
    obtain ⟨hwalk, _⟩ := includedFiles_mem hpc
    obtain ⟨suf, _, _, _, hfk⟩ :=
      walkEntries_mem (excludedDirNames userExcl) fileOk dirOk root [] _ hwalk
    exact hfk

/-- Witness for C1: the example run with extensions `[py]` includes
`a.py`, whose lowercased extension is a member of the configured list. -/
theorem extension_allowlist_governs_inclusion_witness :
    extOf ["a.py"] ∈ ["py"].map toLowerStr :=
  (extension_allowlist_governs_inclusion "root" ["py"] [] allOk allOk sampleRoot
      ⟨"# a.py\nA\n\n# sub/c.py\nC\n\n", [["a.py"], ["sub", "c.py"]], []⟩ rfl).1
    (by simp) ["a.py"] (by simp)


/-- C2: for every name in the exclusion set (the eight built-in defaults
united with the user-supplied names, compared case-sensitively against the
directory basename), the walk prunes any directory so named without
descending into it (its subtree contributes nothing to the yielded entries,
whatever it contains), no walked file and hence no included file lies beneath
such a directory, and every segment of the aggregate buffer comes from a file
whose directory components avoid the name — so no such file reaches the
included-files list, the buffer, or the tree built from the copied paths. -/
theorem excluded_dir_subtrees_never_contribute (dir : String)
    (rawExts userExcl : List String) (fileOk dirOk : List String → Bool)
    (root : FSList) (st : RunState) (d : String)
    (h : runProgram dir rawExts userExcl fileOk dirOk root = .ok st)
    (hd : d ∈ excludedDirNames userExcl) :
    (∀ (pre : List String) (es : FSList) (rest : FSList),
      walkEntries (excludedDirNames userExcl) fileOk dirOk pre (.cons (.dir d es) rest)
        = walkEntries (excludedDirNames userExcl) fileOk dirOk pre rest) ∧
    (∀ cr ∈ walkEntries (excludedDirNames userExcl) fileOk dirOk [] root,
      d ∉ cr.1.dropLast) ∧
    (∀ c ∈ st.copiedFiles, d ∉ c.dropLast) ∧
    (∀ pc ∈ includedFiles (rawExts.map toLowerStr)
        (walkEntries (excludedDirNames userExcl) fileOk dirOk [] root),
      d ∉ pc.1.dropLast) := by
  obtain ⟨hvalid, hst⟩ := runProgram_ok_elim h
  have hwalkmem : ∀ cr ∈ walkEntries (excludedDirNames userExcl) fileOk dirOk [] root,
      d ∉ cr.1.dropLast := by
    intro cr hcr
    obtain ⟨suf, h1, _, hdrop, _⟩ :=
      walkEntries_mem (excludedDirNames userExcl) fileOk dirOk root [] cr hcr
    rw [h1, List.nil_append]
    exact hdrop d hd
  have hinc : ∀ pc ∈ includedFiles (rawExts.map toLowerStr)
      (walkEntries (excludedDirNames userExcl) fileOk dirOk [] root),
      d ∉ pc.1.dropLast := by
    intro pc hpc
    obtain ⟨hw, _⟩ := includedFiles_mem hpc
    exact hwalkmem (pc.1, ReadResult.ok pc.2) hw
  refine ⟨?_, hwalkmem, ?_, hinc⟩
  · intro pre es rest
    rw [walkEntries, if_pos (Or.inl hd), List.nil_append]
  · intro c hc
    rw [hst, runCollect_spec] at hc
    simp only [RunState.copiedFiles] at hc
    rw [List.nil_append] at hc
    rcases List.mem_map.mp hc with ⟨pc, hpc, rfl⟩
    exact hinc pc hpc

/-- Witness for C2: in the example run, `node_modules` is in the default
exclusion set and is not a directory component of the included file
`sub/c.py`. -/
theorem excluded_dir_subtrees_never_contribute_witness :
    "node_modules" ∉ (["sub", "c.py"] : List String).dropLast :=
  ((excluded_dir_subtrees_never_contribute "root" ["py"] [] allOk allOk sampleRoot
      ⟨"# a.py\nA\n\n# sub/c.py\nC\n\n", [["a.py"], ["sub", "c.py"]], []⟩
      "node_modules" rfl (by simp [excludedDirNames, defaultExcludedDirs])).2.2.1)
    ["sub", "c.py"] (by simp)


/-- C3: for every file that passes the extension filter and is successfully
read as text, the loop appends to the aggregate buffer exactly one block
`{header}\n{content}\n\n` — where the header is the single line
`{comment} {relative_path}` for a `Line` style and the two lines
`{open} {relative_path}\n{close}` for a `Block` style — with the raw content
unmodified, and records the same relative path in the included-files list;
nothing else in the state changes. -/
theorem successful_read_appends_one_block (dir : String) (exts : List String)
    (st : RunState) (c : List String) (content : String)
    (h : passesFilter exts c = true) :
    processFile dir exts st c (.ok content) =
      ⟨st.codeBuffer ++ fileBlock (extOf c) (relDisplay c) content,
       st.copiedFiles ++ [c], st.errLines⟩ ∧
    fileBlock (extOf c) (relDisplay c) content
      = headerFor (getCommentSyntax (extOf c)) (relDisplay c)
        ++ "\n" ++ content ++ "\n\n" :=
  ⟨processFile_ok dir exts st c content h, rfl⟩

/-- Witness for C3: processing `a.py` with content `x` from the empty state
appends the single block `# a.py\nx\n\n` and records the path. -/
theorem successful_read_appends_one_block_witness :
    processFile "root" ["py"] ⟨"", [], []⟩ ["a.py"] (.ok "x") =
      ⟨"" ++ fileBlock (extOf ["a.py"]) (relDisplay ["a.py"]) "x", [] ++ [["a.py"]], []⟩ :=
  (successful_read_appends_one_block "root" ["py"] ⟨"", [], []⟩ ["a.py"] "x" (by decide)).1

/-- C4 counterexample: in a run over a single `a.py` whose content contains a
blank line (`x\n\ny\n`), the aggregate buffer splits on the double-newline
separator into three segments while only one file was included — splitting
the buffer does not yield one segment per included file. -/
theorem buffer_split_on_blank_lines_counterexample :
    runProgram "root" ["py"] [] allOk allOk
        (.cons (.file "a.py" (.ok "x\n\ny\n")) .nil)
      = .ok ⟨"# a.py\nx\n\ny\n\n\n", [["a.py"]], []⟩ ∧
    (doubleNewlineSegments "# a.py\nx\n\ny\n\n\n").length = 3 ∧
    (1 : Nat) ≠ 3 :=
  ⟨rfl, rfl, by decide⟩

/-- C4 as amended: the aggregate buffer is the concatenation of exactly one
block `{header}\n{content}\n\n` per included file, in traversal order, each
beginning with the header the Comment-Style Resolver produces for that file's
extension; there are exactly as many blocks as included files.  (Splitting
the buffer on double newlines need not recover the blocks, because a file's
raw content may itself contain blank lines or end in a newline.) -/
theorem buffer_is_concatenation_of_blocks (dir : String)
    (rawExts userExcl : List String) (fileOk dirOk : List String → Bool)
    (root : FSList) (st : RunState)
    (h : runProgram dir rawExts userExcl fileOk dirOk root = .ok st) :
    st.codeBuffer = concatAll (blocksOf (rawExts.map toLowerStr)
        (walkEntries (excludedDirNames userExcl) fileOk dirOk [] root)) ∧
    st.copiedFiles = (includedFiles (rawExts.map toLowerStr)
        (walkEntries (excludedDirNames userExcl) fileOk dirOk [] root)).map Prod.fst ∧
    (blocksOf (rawExts.map toLowerStr)
        (walkEntries (excludedDirNames userExcl) fileOk dirOk [] root)).length
      = st.copiedFiles.length ∧
    (∀ pc ∈ includedFiles (rawExts.map toLowerStr)
        (walkEntries (excludedDirNames userExcl) fileOk dirOk [] root),
      fileBlock (extOf pc.1) (relDisplay pc.1) pc.2
        = headerFor (getCommentSyntax (extOf pc.1)) (relDisplay pc.1)
          ++ "\n" ++ pc.2 ++ "\n\n") := by
  obtain ⟨hvalid, hst⟩ := runProgram_ok_elim h
  rw [hst, runCollect_spec]
  refine ⟨by simp, by simp, ?_, fun pc _ => rfl⟩
  simp [blocksOf]

/-- Witness for C4 (amended): in the example run the buffer is exactly the
concatenation of the two blocks of `a.py` and `sub/c.py`. -/
theorem buffer_is_concatenation_of_blocks_witness :
    ("# a.py\nA\n\n# sub/c.py\nC\n\n" : String)
      = concatAll (blocksOf (["py"].map toLowerStr)
          (walkEntries (excludedDirNames []) allOk allOk [] sampleRoot)) :=
  (buffer_is_concatenation_of_blocks "root" ["py"] [] allOk allOk sampleRoot
      ⟨"# a.py\nA\n\n# sub/c.py\nC\n\n", [["a.py"], ["sub", "c.py"]], []⟩ rfl).1


/-- C5: tree rendering is deterministic and insertion-order independent —
inserting any permutation of the included relative paths and rendering
produces identical output — and the built tree satisfies the key-sorted
invariant at every node, so `renderChildren` emits the children of every
node in lexicographic order of their names (the order `keys.sort()`
produces). -/
theorem tree_render_insertion_order_independent (l1 l2 : List (List String))
    (h : l1.Perm l2) :
    renderTree (buildTree l1) = renderTree (buildTree l2) ∧
    sortedNode (buildTree l1) = true := by
  constructor
  · have : buildTree l1 = buildTree l2 := foldl_addPath_perm h (.mk "" .nil)
    rw [this]
  · exact buildTree_sorted l1

/-- Witness for C5: the two insertion orders of `a` and `b` render
identically. -/
theorem tree_render_insertion_order_independent_witness :
    renderTree (buildTree [["b"], ["a"]]) = renderTree (buildTree [["a"], ["b"]]) :=
  (tree_render_insertion_order_independent [["b"], ["a"]] [["a"], ["b"]]
      (List.Perm.swap ["a"] ["b"] [])).1

/-- C6 counterexample: the example scenario run (root with `a.py`, `b.txt`,
`sub/c.py`, `node_modules/d.py`, extensions `[py]`, default exclusions) does
include exactly `a.py` and `sub/c.py` with two `# {path}`-headed segments,
but the rendered tree is not the claimed three lines without leading
indentation: `main` prints the root with `is_last = true`, so every
top-level entry is indented by four spaces. -/
theorem example_scenario_counterexample :
    runProgram "root" ["py"] [] allOk allOk sampleRoot =
      .ok ⟨"# a.py\nA\n\n# sub/c.py\nC\n\n", [["a.py"], ["sub", "c.py"]], []⟩ ∧
    renderTree (buildTree [["a.py"], ["sub", "c.py"]])
      ≠ ["├── a.py", "└── sub", "    └── c.py"] :=
  ⟨rfl, by decide⟩

/-- C6 as amended: the example scenario includes exactly `a.py` and
`sub/c.py` (in that traversal order), the aggregate buffer is exactly the
two `# {relative_path}`-headed blocks, and the rendered tree is the three
claimed lines each carrying the four-space indentation that printing the
root with `is_last = true` prepends to top-level entries. -/
theorem example_scenario_amended :
    runProgram "root" ["py"] [] allOk allOk sampleRoot =
      .ok ⟨"# a.py\nA\n\n# sub/c.py\nC\n\n", [["a.py"], ["sub", "c.py"]], []⟩ ∧
    ("# a.py\nA\n\n# sub/c.py\nC\n\n" : String)
      = fileBlock "py" "a.py" "A" ++ fileBlock "py" "sub/c.py" "C" ∧
    renderTree (buildTree [["a.py"], ["sub", "c.py"]])
      = ["    ├── a.py", "    └── sub", "        └── c.py"] :=
  ⟨rfl, rfl, rfl⟩


/-- C7: the extension-to-comment-style resolver is a pure total function on
lowercase extension strings: the fixed line-comment extensions map to
`Line "//"` or `Line "#"` per the table, the markup extensions to
`Block "<!--" "-->"`, `css` to `Block "/*" "*/"`, and every other input —
the empty string included — to the default `Line "//"`; no input is
rejected, so an unrecognized extension never blocks inclusion. -/
theorem comment_style_resolver_table :
    (∀ e ∈ ["rs", "js", "ts", "c", "h", "cpp", "hpp", "java", "cs", "go",
        "swift", "kt", "kts"], getCommentSyntax e = .Line "//") ∧
    (∀ e ∈ ["py", "sh", "yaml", "yml", "toml", "ini", "rb", "pl", "r", "php",
        "ps1", "makefile"], getCommentSyntax e = .Line "#") ∧
    (∀ e ∈ ["html", "xml", "xhtml"], getCommentSyntax e = .Block "<!--" "-->") ∧
    getCommentSyntax "css" = .Block "/*" "*/" ∧
    (∀ s : String,
      s ∉ ["rs", "js", "ts", "c", "h", "cpp", "hpp", "java", "cs", "go",
        "swift", "kt", "kts"] →
      s ∉ ["py", "sh", "yaml", "yml", "toml", "ini", "rb", "pl", "r", "php",
        "ps1", "makefile"] →
      s ∉ ["html", "xml", "xhtml"] → s ≠ "css" →
      getCommentSyntax s = .Line "//") ∧
    getCommentSyntax "" = .Line "//" := by
  refine ⟨by decide, by decide, by decide, by decide, ?_, by decide⟩
  intro s h1 h2 h3 h4
  simp [getCommentSyntax, h1, h2, h3, h4]

/-- Witness for C7: an extension outside every table row resolves to the
default line style. -/
theorem comment_style_resolver_table_witness :
    getCommentSyntax "zig" = .Line "//" :=
  comment_style_resolver_table.2.2.2.2.1 "zig" (by decide) (by decide)
    (by decide) (by decide)

/-- C8: a file that passes the extension filter but fails to decode as text
(`ErrorKind::InvalidData`) contributes nothing to the aggregate buffer and
the included-files list (hence to the tree built from it), produces exactly
one diagnostic line on the error channel and none on the buffer, and the
loop continues with the remaining entries rather than aborting. -/
theorem binary_file_skip_one_diagnostic (dir : String) (exts : List String)
    (st : RunState) (c : List String)
    (rest : List (Except String (List String × ReadResult)))
    (h : passesFilter exts c = true) :
    processFile dir exts st c .invalidData
      = { st with errLines := st.errLines ++ [binaryDiag dir c] } ∧
    (processFile dir exts st c .invalidData).codeBuffer = st.codeBuffer ∧
    (processFile dir exts st c .invalidData).copiedFiles = st.copiedFiles ∧
    collectorLoop dir exts st (.ok (c, .invalidData) :: rest)
      = collectorLoop dir exts
          { st with errLines := st.errLines ++ [binaryDiag dir c] } rest := by
  have h1 := processFile_invalidData dir exts st c h
  refine ⟨h1, by rw [h1], by rw [h1], ?_⟩
  show collectorLoop dir exts (processFile dir exts st c .invalidData) rest = _
  rw [h1]

/-- Witness for C8: a binary `b.py` adds exactly one diagnostic line and
leaves buffer and copied list empty. -/
theorem binary_file_skip_one_diagnostic_witness :
    processFile "root" ["py"] ⟨"", [], []⟩ ["b.py"] .invalidData
      = ⟨"", [], ["Skipping binary file \"root/b.py\""]⟩ :=
  ((binary_file_skip_one_diagnostic "root" ["py"] ⟨"", [], []⟩ ["b.py"] []
      (by decide)).1).trans rfl

/-- C9 counterexample: an error yielded by the underlying walk for a single
entry is not treated as a recoverable skip — the loop propagates it with
`?`, aborting the whole run and discarding the state, even though entries
before and after it were readable. -/
theorem walk_error_aborts_counterexample :
    collectorLoop "root" ["py"] ⟨"", [], []⟩
        [Except.ok (["a.py"], ReadResult.ok "A"),
         Except.error "walk error: permission denied",
         Except.ok (["b.py"], ReadResult.ok "B")]
      = Except.error "walk error: permission denied" := rfl

/-- C9 as amended: a non-decode read failure on an individual file
(permission denied, I/O error, vanished file) is skipped with one diagnostic
including the underlying cause, and traversal continues; but any error
yielded by the underlying walk — even for a single entry — aborts the whole
run. -/
theorem read_errors_recoverable_walk_errors_fatal (dir : String)
    (exts : List String) (st : RunState) (c : List String) (e w : String)
    (rest rest2 : List (Except String (List String × ReadResult)))
    (h : passesFilter exts c = true) :
    processFile dir exts st c (.err e)
      = { st with errLines := st.errLines ++ [readErrDiag dir c e] } ∧
    collectorLoop dir exts st (.ok (c, .err e) :: rest)
      = collectorLoop dir exts
          { st with errLines := st.errLines ++ [readErrDiag dir c e] } rest ∧
    collectorLoop dir exts st (.error w :: rest2) = .error w := by
  have h1 := processFile_err dir exts st c e h
  refine ⟨h1, ?_, rfl⟩
  show collectorLoop dir exts (processFile dir exts st c (.err e)) rest = _
  rw [h1]

/-- Witness for C9 (amended): a permission-denied read on `a.py` is recorded
as one diagnostic while a walk error aborts. -/
theorem read_errors_recoverable_walk_errors_fatal_witness :
    collectorLoop "root" ["py"] (⟨"", [], []⟩ : RunState)
        [Except.error "boom"] = Except.error "boom" :=
  (read_errors_recoverable_walk_errors_fatal "root" ["py"] ⟨"", [], []⟩
      ["a.py"] "permission denied" "boom" [] [] (by decide)).2.2

/-- C10: a file with no extension is treated as having the empty-string
extension (`unwrap_or("")`); in every run reaching the walk with a non-empty
configured list, such a file is never recorded — the configuration phase
only admits non-empty alphanumeric extension names, so the empty string is
never a member — and when such a file is included under the empty-list
default type detection, its buffer block uses the fallback `Line "//"`
header. -/
theorem no_extension_file_excluded_and_fallback (dir : String)
    (rawExts userExcl : List String) (fileOk dirOk : List String → Bool)
    (root : FSList) (st : RunState)
    (h : runProgram dir rawExts userExcl fileOk dirOk root = .ok st)
    (hne : rawExts ≠ []) :
    (∀ c ∈ st.copiedFiles, rustExtension (c.getLastD "") ≠ none) ∧
    (∀ name : String, rustExtension name = none →
      toLowerStr ((rustExtension name).getD "") = "") ∧
    (∀ (c : List String) (content : String),
      rustExtension (c.getLastD "") = none →
      fileBlock (extOf c) (relDisplay c) content
        = "// " ++ relDisplay c ++ "\n" ++ content ++ "\n\n") := by
  obtain ⟨hvalid, hst⟩ := runProgram_ok_elim h
  have hexts_ne : rawExts.map toLowerStr ≠ [] :=
    fun hcontra => hne (List.map_eq_nil_iff.mp hcontra)
  have hie : (rawExts.map toLowerStr).isEmpty = false := by
    cases hq : (rawExts.map toLowerStr).isEmpty
    · rfl
    · exact absurd (List.isEmpty_iff.mp hq) hexts_ne
  have hall : (rawExts.map toLowerStr).all validExtName = true := by
    rw [hie, Bool.false_or] at hvalid
    exact hvalid
  refine ⟨?_, ?_, ?_⟩
  · intro c hc hnone
    have hcopied : st.copiedFiles =
        (includedFiles (rawExts.map toLowerStr)
          (walkEntries (excludedDirNames userExcl) fileOk dirOk [] root)).map Prod.fst := by
      rw [hst, runCollect_spec]
      simp
    rw [hcopied] at hc
    rcases List.mem_map.mp hc with ⟨pc, hpc, rfl⟩
    obtain ⟨_, hpass⟩ := includedFiles_mem hpc
    rcases passesFilter_true_cases hpass with hempty | hmem
    · exact hexts_ne hempty
    · have hx : extOf pc.1 = "" := by rw [extOf, hnone]; rfl
      rw [hx] at hmem
      have hv : validExtName "" = true := List.all_eq_true.mp hall "" hmem
      exact absurd hv (by decide)
  · intro name hn
    rw [hn]
    rfl
  · intro c content hn
    have hx : extOf c = "" := by rw [extOf, hn]; rfl
    rw [hx]
    rfl

/-- Witness for C10: in the example run with extensions `[py]`, the included
file `a.py` does have an extension. -/
theorem no_extension_file_excluded_and_fallback_witness :
    rustExtension ((["a.py"] : List String).getLastD "") ≠ none :=
  (no_extension_file_excluded_and_fallback "root" ["py"] [] allOk allOk sampleRoot
      ⟨"# a.py\nA\n\n# sub/c.py\nC\n\n", [["a.py"], ["sub", "c.py"]], []⟩ rfl
      (by simp)).1 ["a.py"] (by simp)

end CodeCollector
